import Mathlib

/-!
Verification of the red-black-tree dictionary described by the repository's
header `src/project3/include/red_black_tree_dict.h` and its design document.
The header declares the public facade (`dict_new`, `dict_insert`, `dict_get`,
`dict_contains_key`, `dict_remove`); the balancing implementation itself is
not part of the shipped sources, so every operation below is modelled from
the spec (§3 data model, §4 component design, §7 error handling).
Keys are unsigned 64-bit integers used only through comparisons, so they are
embedded as naturals; values are strings.
-/

namespace RBDict

/-- Modelled from the spec (§3): a node's color tag, one of RED or BLACK. -/
inductive Color where
  | red : Color
  | black : Color
deriving DecidableEq, Repr

/-- Modelled from the spec (§3): the node store. A node holds a key, a value,
a color and the two child links; `nil` is the absent child. The parent
back-reference of the C code is non-owning and recoverable from the path, so
the tree is represented by its ownership structure alone. -/
inductive RBTree where
  | nil : RBTree
  | node (c : Color) (l : RBTree) (k : Nat) (v : String) (r : RBTree) : RBTree
deriving DecidableEq, Repr

namespace RBTree

/-- Modelled from the spec (§3, §9): the color of a position, where an absent
child is uniformly BLACK for invariant-checking purposes. -/
def color : RBTree → Color
  | .nil => .black
  | .node c _ _ _ _ => c

/-- True exactly on an actual node colored BLACK (not on an absent child). -/
def isBlackNode : RBTree → Bool
  | .node .black _ _ _ _ => true
  | _ => false

/-- Repaint the root node's color field (no-op on an absent child). -/
def paint (c : Color) : RBTree → RBTree
  | .nil => .nil
  | .node _ l k v r => .node c l k v r

/-- Number of nodes reachable from the root. -/
def size : RBTree → Nat
  | .nil => 0
  | .node _ l _ _ r => size l + size r + 1

/-- Height of the tree (number of nodes on a longest root-to-leaf path). -/
def height : RBTree → Nat
  | .nil => 0
  | .node _ l _ _ r => max (height l) (height r) + 1

/-- Modelled from the spec (§3, glossary): black-height, the number of BLACK
nodes on the path from the root to the leftmost absent-child position. -/
def bheight : RBTree → Nat
  | .nil => 0
  | .node c l _ _ _ => (if c = .black then 1 else 0) + bheight l

/-- In-order traversal of the key/value pairs. -/
def inorder : RBTree → List (Nat × String)
  | .nil => []
  | .node _ l k v r => inorder l ++ (k, v) :: inorder r

/-- In-order key sequence. -/
def keys (t : RBTree) : List Nat := (inorder t).map Prod.fst

/-- In-order sequence of (key, color) pairs: which node carries which color. -/
def colorKeyPairs : RBTree → List (Nat × Color)
  | .nil => []
  | .node c l k _ r => colorKeyPairs l ++ (k, c) :: colorKeyPairs r

/-- Modelled from the spec (§4.1): search walks from the root comparing keys
(left if target smaller, right if larger, stop on equality) and returns the
stored value if found. -/
def search : RBTree → Nat → Option String
  | .nil, _ => none
  | .node _ l k v r, x =>
      if x < k then search l x
      else if k < x then search r x
      else some v

/-- Modelled from the spec (§3 lifecycle, §4.3): value replacement on an
existing key mutates the node in place, with no structural change and no
fixup. -/
def setValue : RBTree → Nat → String → RBTree
  | .nil, _, _ => .nil
  | .node c l k v r, x, vx =>
      if x < k then .node c (setValue l x vx) k v r
      else if k < x then .node c l k v (setValue r x vx)
      else .node c l x vx r

/-- The skeleton of a tree: structure, colors and keys, with values erased.
Two trees with the same skeleton have the same nodes in the same places. -/
def skel : RBTree → RBTree
  | .nil => .nil
  | .node c l k _ r => .node c (skel l) k "" (skel r)

/-- Modelled from the spec (§4.2): left rotation around a pivot `x` and its
right child `y`; `y` becomes the parent, `x` becomes `y`'s left child, and
`y`'s former left subtree moves to `x`. Colors travel with their nodes. -/
def rotateLeft : RBTree → RBTree
  | .node cx a kx vx (.node cy b ky vy c) =>
      .node cy (.node cx a kx vx b) ky vy c
  | t => t

/-- Modelled from the spec (§4.2): right rotation, the mirror image of
`rotateLeft`, around a pivot `x` and its left child `y`. -/
def rotateRight : RBTree → RBTree
  | .node cx (.node cy a ky vy b) kx vx c =>
      .node cy a ky vy (.node cx b kx vx c)
  | t => t

/-- Modelled from the spec (§4.3): repair of a left child that may carry a
red-red violation. The two matching cases are the uncle-BLACK "line" and
"triangle" cases (recolor parent BLACK, grandparent RED, rotate at the
grandparent, with the triangle first rotated at the parent); the fallback
rebuilds the BLACK grandparent unchanged. -/
def baliL : RBTree → Nat → String → RBTree → RBTree
  | .node .red (.node .red t1 k1 v1 t2) k2 v2 t3, k3, v3, t4 =>
      .node .red (.node .black t1 k1 v1 t2) k2 v2 (.node .black t3 k3 v3 t4)
  | .node .red t1 k1 v1 (.node .red t2 k2 v2 t3), k3, v3, t4 =>
      .node .red (.node .black t1 k1 v1 t2) k2 v2 (.node .black t3 k3 v3 t4)
  | l, k, v, r => .node .black l k v r

/-- Modelled from the spec (§4.3): mirror image of `baliL` for a right child
carrying a red-red violation. -/
def baliR : RBTree → Nat → String → RBTree → RBTree
  | t1, k1, v1, .node .red t2 k2 v2 (.node .red t3 k3 v3 t4) =>
      .node .red (.node .black t1 k1 v1 t2) k2 v2 (.node .black t3 k3 v3 t4)
  | t1, k1, v1, .node .red (.node .red t2 k2 v2 t3) k3 v3 t4 =>
      .node .red (.node .black t1 k1 v1 t2) k2 v2 (.node .black t3 k3 v3 t4)
  | l, k, v, r => .node .black l k v r

/-- Modelled from the spec (§4.3): insertion of a brand-new key as a RED
leaf at the BST position found by search, repairing red-red violations on
the way back to the root (the insertion fixup). -/
def ins (x : Nat) (vx : String) : RBTree → RBTree
  | .nil => .node .red .nil x vx .nil
  | .node .black l k v r =>
      if x < k then baliL (ins x vx l) k v r
      else if k < x then baliR l k v (ins x vx r)
      else .node .black l x vx r
  | .node .red l k v r =>
      if x < k then .node .red (ins x vx l) k v r
      else if k < x then .node .red l k v (ins x vx r)
      else .node .red l x vx r

/-- Modelled from the spec (§4.4): deletion fixup on the left side. The left
subtree is one BLACK unit short; the cases correspond to the sibling-color
case analysis of the deletion fixup. -/
def baldL : RBTree → Nat → String → RBTree → RBTree
  | .node .red t1 k1 v1 t2, k2, v2, t3 =>
      .node .red (.node .black t1 k1 v1 t2) k2 v2 t3
  | t1, k1, v1, .node .black t2 k2 v2 t3 =>
      baliR t1 k1 v1 (.node .red t2 k2 v2 t3)
  | t1, k1, v1, .node .red (.node .black t2 k2 v2 t3) k3 v3 t4 =>
      .node .red (.node .black t1 k1 v1 t2) k2 v2 (baliR t3 k3 v3 (paint .red t4))
  | t1, k1, v1, t2 => .node .red t1 k1 v1 t2

/-- Modelled from the spec (§4.4): deletion fixup on the right side, mirror
image of `baldL`. -/
def baldR : RBTree → Nat → String → RBTree → RBTree
  | t1, k1, v1, .node .red t2 k2 v2 t3 =>
      .node .red t1 k1 v1 (.node .black t2 k2 v2 t3)
  | .node .black t1 k1 v1 t2, k2, v2, t3 =>
      baliL (.node .red t1 k1 v1 t2) k2 v2 t3
  | .node .red t1 k1 v1 (.node .black t2 k2 v2 t3), k3, v3, t4 =>
      .node .red (baliL (paint .red t1) k1 v1 t2) k2 v2 (.node .black t3 k3 v3 t4)
  | t1, k1, v1, t2 => .node .red t1 k1 v1 t2

/-- Modelled from the spec (§4.4): removal of the minimum (leftmost) node of
a nonempty tree, returning its key, its value and the repaired remainder.
Used for in-order successor promotion during two-child deletion. -/
def delMin : RBTree → Nat × String × RBTree
  | .nil => (0, "", .nil)
  | .node _ .nil k v r => (k, v, r)
  | .node _ (.node lc ll lk lv lr) k v r =>
      let p := delMin (.node lc ll lk lv lr)
      if lc = .black then (p.1, p.2.1, baldL p.2.2 k v r)
      else (p.1, p.2.1, .node .red p.2.2 k v r)

/-- Modelled from the spec (§4.4): removal of the located node. If the right
subtree is absent, the left child takes the node's place; otherwise the
in-order successor (leftmost node of the right subtree) is promoted into the
node, the successor's own node is deleted, and the right side is repaired if
it lost a BLACK unit. -/
def delRootJoin (l : RBTree) (r : RBTree) : RBTree :=
  match r with
  | .nil => l
  | .node rc rl rk rv rr =>
      let p := delMin (.node rc rl rk rv rr)
      if rc = .black then baldR l p.1 p.2.1 p.2.2
      else .node .red l p.1 p.2.1 p.2.2

/-- Modelled from the spec (§4.4): deletion of a key, descending by
comparison and repairing the side that lost a BLACK unit (the deletion
fixup) on the way back up. -/
def del (x : Nat) : RBTree → RBTree
  | .nil => .nil
  | .node _ l k v r =>
      if x < k then
        if isBlackNode l then baldL (del x l) k v r
        else .node .red (del x l) k v r
      else if k < x then
        if isBlackNode r then baldR l k v (del x r)
        else .node .red l k v (del x r)
      else delRootJoin l r

/-- Modelled from the spec (§3 invariant 2): no RED node has a RED child. -/
def invc : RBTree → Prop
  | .nil => True
  | .node c l _ _ r =>
      (c = .red → l.color = .black ∧ r.color = .black) ∧ invc l ∧ invc r

/-- `invc` with the root's own color constraint waived: the tree repainted
BLACK at the root satisfies `invc`. -/
def invc2 (t : RBTree) : Prop := invc (paint .black t)

/-- Modelled from the spec (§3 invariant 3): every path from a node to an
absent-child position passes through the same number of BLACK nodes. -/
def invh : RBTree → Prop
  | .nil => True
  | .node _ l _ _ r => bheight l = bheight r ∧ invh l ∧ invh r

instance decInvc : (t : RBTree) → Decidable (invc t)
  | .nil => .isTrue trivial
  | .node c l _ _ r =>
      haveI := decInvc l
      haveI := decInvc r
      decidable_of_iff ((c = .red → l.color = .black ∧ r.color = .black) ∧ invc l ∧ invc r)
        Iff.rfl

instance decInvh : (t : RBTree) → Decidable (invh t)
  | .nil => .isTrue trivial
  | .node _ l _ _ r =>
      haveI := decInvh l
      haveI := decInvh r
      decidable_of_iff (bheight l = bheight r ∧ invh l ∧ invh r) Iff.rfl

end RBTree

/-- Strictly increasing key order on an association list. -/
def sortedPairs (ps : List (Nat × String)) : Prop :=
  List.Pairwise (fun p q : Nat × String => p.1 < q.1) ps

instance : DecidablePred sortedPairs := fun ps =>
  decidable_of_iff (List.Pairwise (fun p q : Nat × String => p.1 < q.1) ps) Iff.rfl

/-- Insertion into an association list kept in strictly increasing key
order, with update semantics on an existing key. -/
def insList (x : Nat) (v : String) : List (Nat × String) → List (Nat × String)
  | [] => [(x, v)]
  | p :: ps =>
      if x < p.1 then (x, v) :: p :: ps
      else if p.1 < x then p :: insList x v ps
      else (x, v) :: ps

/-- Deletion of the first pair with the given key from an association
list. -/
def delList (x : Nat) : List (Nat × String) → List (Nat × String)
  | [] => []
  | p :: ps => if x = p.1 then ps else p :: delList x ps

/-- Lookup of the first pair with the given key in an association list. -/
def lookupList (x : Nat) : List (Nat × String) → Option String
  | [] => none
  | p :: ps => if x = p.1 then some p.2 else lookupList x ps

/-- Pointwise value update of the pairs carrying the given key. -/
def setList (x : Nat) (v : String) (ps : List (Nat × String)) :
    List (Nat × String) :=
  ps.map (fun p => if p.1 = x then (x, v) else p)

/-- Modelled from the spec (§3): the RBTree object owns a root reference and
an element count. -/
structure Dict where
  root : RBTree
  count : Nat
deriving DecidableEq, Repr

open RBTree

/-- Modelled from the spec (§3): the class invariant — the five red-black
invariants that must hold after every public operation returns: BLACK root
(absent root counts as BLACK), no RED node with a RED child, well-defined
black-height on every path, strictly increasing in-order key sequence, and
element count equal to the number of reachable nodes. -/
def RBValid (d : Dict) : Prop :=
  d.root.color = .black ∧ invc d.root ∧ invh d.root ∧
    sortedPairs d.root.inorder ∧ d.count = d.root.size

instance : DecidablePred RBValid := fun d => by
  unfold RBValid; infer_instance

/-- Outcome signalled by insertion (spec §4.3, §7). -/
inductive InsertOutcome where
  | inserted : InsertOutcome
  | updated : InsertOutcome
  | allocFailed : InsertOutcome
deriving DecidableEq, Repr

/-- Outcome signalled by removal (spec §4.4). -/
inductive RemoveOutcome where
  | removed : RemoveOutcome
  | notFound : RemoveOutcome
deriving DecidableEq, Repr

/-- Modelled from the spec (§4.5, §6): `dict_new` returns an empty tree with
count 0 and no root. -/
def dict_new : Dict := ⟨.nil, 0⟩

/-- Modelled from the spec (§4.1, §4.5): pure point lookup via search. -/
def dict_get (d : Dict) (x : Nat) : Option String := search d.root x

/-- Modelled from the spec (§4.1, §4.5): existence check via search. -/
def dict_contains_key (d : Dict) (x : Nat) : Bool := (search d.root x).isSome

/-- Modelled from the spec (§4.3): upsert. Search first; if the key is
present, replace its value in place (no structural change, no fixup) and
report "updated"; otherwise attach a new RED leaf, increment the count, run
the insertion fixup, force the root BLACK, and report "inserted". -/
def dict_insert (d : Dict) (x : Nat) (vx : String) : Dict × InsertOutcome :=
  if dict_contains_key d x then
    (⟨setValue d.root x vx, d.count⟩, .updated)
  else
    (⟨paint .black (ins x vx d.root), d.count + 1⟩, .inserted)

/-- Modelled from the spec (§4.4): removal. Search first; a no-op reporting
"not found" if the key is absent, otherwise delete the node, repair with the
deletion fixup, force the root BLACK and decrement the count. -/
def dict_remove (d : Dict) (x : Nat) : Dict × RemoveOutcome :=
  if dict_contains_key d x then
    (⟨paint .black (del x d.root), d.count - 1⟩, .removed)
  else
    (d, .notFound)

/-- Modelled from the spec (§6, §7): `dict_new` under an allocation oracle —
on allocation failure the construction signals a null result instead of
aborting. -/
def dict_new_alloc (allocOk : Bool) : Option Dict :=
  if allocOk then some dict_new else none

/-- Modelled from the spec (§7): insertion under an allocation oracle. Only
the creation of a brand-new node allocates; if that allocation fails the
node is never linked in and the tree is left completely unchanged. Updates
of an existing key need no allocation. -/
def dict_insert_alloc (allocOk : Bool) (d : Dict) (x : Nat) (vx : String) :
    Dict × InsertOutcome :=
  if dict_contains_key d x then
    (⟨setValue d.root x vx, d.count⟩, .updated)
  else if allocOk then
    (⟨paint .black (ins x vx d.root), d.count + 1⟩, .inserted)
  else
    (d, .allocFailed)

/-- A public call of the dictionary facade (spec §6). -/
inductive DictCall where
  | insert (k : Nat) (v : String) : DictCall
  | remove (k : Nat) : DictCall
  | get (k : Nat) : DictCall
  | contains (k : Nat) : DictCall
deriving DecidableEq, Repr

/-- State transition of one facade call: mutators update the dictionary,
queries read it. -/
def execCall (d : Dict) : DictCall → Dict
  | .insert k v => (dict_insert d k v).1
  | .remove k => (dict_remove d k).1
  | .get _ => d
  | .contains _ => d

/-- Run a sequence of facade calls starting from a fresh dictionary. -/
def runCalls (cs : List DictCall) : Dict :=
  cs.foldl execCall dict_new

/-- Modelled from the spec (§8): the reference ordered-map model — a plain
partial map from keys to values. -/
def MapModel := Nat → Option String

/-- Modelled from the spec (§8): update semantics of the reference model. -/
def modelInsert (m : MapModel) (k : Nat) (v : String) : MapModel :=
  fun x => if x = k then some v else m x

/-- Modelled from the spec (§8): removal in the reference model. -/
def modelRemove (m : MapModel) (k : Nat) : MapModel :=
  fun x => if x = k then none else m x

/-- The reference model's transition for one facade call. -/
def execModel (m : MapModel) : DictCall → MapModel
  | .insert k v => modelInsert m k v
  | .remove k => modelRemove m k
  | .get _ => m
  | .contains _ => m

/-- Run a sequence of facade calls against the reference model. -/
def runModel (cs : List DictCall) : MapModel :=
  cs.foldl execModel (fun _ => none)

/-! ## Basic structural lemmas -/

namespace RBTree

@[simp] theorem color_nil : color .nil = .black := rfl

@[simp] theorem color_node (c : Color) (l : RBTree) (k : Nat) (v : String) (r : RBTree) :
    color (.node c l k v r) = c := rfl

@[simp] theorem paint_nil (c : Color) : paint c .nil = .nil := rfl

@[simp] theorem paint_node (c c' : Color) (l : RBTree) (k : Nat) (v : String) (r : RBTree) :
    paint c (.node c' l k v r) = .node c l k v r := rfl

@[simp] theorem inorder_nil : inorder .nil = [] := rfl

@[simp] theorem inorder_node (c : Color) (l : RBTree) (k : Nat) (v : String) (r : RBTree) :
    inorder (.node c l k v r) = inorder l ++ (k, v) :: inorder r := rfl

@[simp] theorem bheight_nil : bheight .nil = 0 := rfl

@[simp] theorem bheight_node (c : Color) (l : RBTree) (k : Nat) (v : String) (r : RBTree) :
    bheight (.node c l k v r) = (if c = .black then 1 else 0) + bheight l := rfl

@[simp] theorem invc_nil : invc .nil := trivial

@[simp] theorem invc_node (c : Color) (l : RBTree) (k : Nat) (v : String) (r : RBTree) :
    invc (.node c l k v r) ↔
      (c = .red → color l = .black ∧ color r = .black) ∧ invc l ∧ invc r :=
  Iff.rfl

@[simp] theorem invh_nil : invh .nil := trivial

@[simp] theorem invh_node (c : Color) (l : RBTree) (k : Nat) (v : String) (r : RBTree) :
    invh (.node c l k v r) ↔ bheight l = bheight r ∧ invh l ∧ invh r :=
  Iff.rfl

@[simp] theorem invc2_nil : invc2 .nil := trivial

@[simp] theorem invc2_node (c : Color) (l : RBTree) (k : Nat) (v : String) (r : RBTree) :
    invc2 (.node c l k v r) ↔ invc l ∧ invc r := by
  simp [invc2, paint, invc]

@[simp] theorem size_nil : size .nil = 0 := rfl

@[simp] theorem size_node (c : Color) (l : RBTree) (k : Nat) (v : String) (r : RBTree) :
    size (.node c l k v r) = size l + size r + 1 := rfl

theorem invc2_of_invc {t : RBTree} (h : invc t) : invc2 t := by
  cases t <;> simp_all

theorem invc_of_invc2 {t : RBTree} (h : invc2 t) (hc : color t = .black) : invc t := by
  cases t <;> simp_all

theorem color_paint_black (t : RBTree) : color (paint .black t) = .black := by
  cases t <;> rfl

theorem inorder_paint (c : Color) (t : RBTree) : inorder (paint c t) = inorder t := by
  cases t <;> rfl

theorem size_paint (c : Color) (t : RBTree) : size (paint c t) = size t := by
  cases t <;> rfl

theorem invh_paint (c : Color) (t : RBTree) : invh (paint c t) ↔ invh t := by
  cases t <;> simp

theorem bheight_paint_red {t : RBTree} (h : color t = .black) :
    bheight (paint .red t) = bheight t - 1 := by
  cases t <;> simp_all

theorem invc_paint_black {t : RBTree} (h : invc2 t) : invc (paint .black t) := h

/-! ## Lemmas about the insertion balance functions -/

theorem inorder_baliL (l : RBTree) (k : Nat) (v : String) (r : RBTree) :
    inorder (baliL l k v r) = inorder l ++ (k, v) :: inorder r := by
  unfold baliL; split <;> simp

theorem inorder_baliR (l : RBTree) (k : Nat) (v : String) (r : RBTree) :
    inorder (baliR l k v r) = inorder l ++ (k, v) :: inorder r := by
  unfold baliR; split <;> simp

theorem invc_of_invc2_top {t : RBTree} (h : invc2 t)
    (h1 : ∀ t1 k1 v1 t2 k2 v2 t3, t ≠ .node .red (.node .red t1 k1 v1 t2) k2 v2 t3)
    (h2 : ∀ t1 k1 v1 t2 k2 v2 t3, t ≠ .node .red t1 k1 v1 (.node .red t2 k2 v2 t3)) :
    invc t := by
  cases t with
  | nil => simp
  | node c l k v r =>
    cases c with
    | black => exact invc_of_invc2 h rfl
    | red =>
      rw [invc2_node] at h
      refine (invc_node ..).mpr ⟨fun _ => ⟨?_, ?_⟩, h.1, h.2⟩
      · cases l with
        | nil => rfl
        | node lc a kk vv d =>
          cases lc with
          | black => rfl
          | red => exact absurd rfl (h1 a kk vv d k v r)
      · cases r with
        | nil => rfl
        | node rc a kk vv d =>
          cases rc with
          | black => rfl
          | red => exact absurd rfl (h2 l k v a kk vv d)

theorem invc_baliL {l r : RBTree} (k : Nat) (v : String)
    (hl : invc2 l) (hr : invc r) : invc (baliL l k v r) := by
  unfold baliL; split
  · simp_all
  · simp_all
  · rename_i h1 h2
    exact (invc_node ..).mpr ⟨by simp, invc_of_invc2_top hl h1 h2, hr⟩

theorem invc_baliR {l r : RBTree} (k : Nat) (v : String)
    (hl : invc l) (hr : invc2 r) : invc (baliR l k v r) := by
  unfold baliR; split
  · simp_all
  · simp_all
  · rename_i h1 h2
    exact (invc_node ..).mpr ⟨by simp, hl, invc_of_invc2_top hr h2 h1⟩

theorem bheight_baliL {l r : RBTree} (k : Nat) (v : String)
    (h : bheight l = bheight r) : bheight (baliL l k v r) = bheight l + 1 := by
  unfold baliL; split <;> simp_all <;> omega

theorem bheight_baliR {l r : RBTree} (k : Nat) (v : String)
    (h : bheight l = bheight r) : bheight (baliR l k v r) = bheight l + 1 := by
  unfold baliR; split <;> simp_all <;> omega

theorem invh_baliL {l r : RBTree} (k : Nat) (v : String)
    (hl : invh l) (hr : invh r) (h : bheight l = bheight r) :
    invh (baliL l k v r) := by
  unfold baliL; split <;> simp_all <;> omega

theorem invh_baliR {l r : RBTree} (k : Nat) (v : String)
    (hl : invh l) (hr : invh r) (h : bheight l = bheight r) :
    invh (baliR l k v r) := by
  unfold baliR; split <;> simp_all <;> omega

/-! ## Lemmas about the deletion balance functions -/

theorem color_black_of_no_red {t : RBTree}
    (h : ∀ t1 k1 v1 t2, t ≠ .node .red t1 k1 v1 t2) : color t = .black := by
  cases t with
  | nil => rfl
  | node c l k v r =>
    cases c with
    | red => exact absurd rfl (h l k v r)
    | black => rfl

theorem invc2_paint (c : Color) (t : RBTree) : invc2 (paint c t) ↔ invc2 t := by
  cases t <;> simp

theorem inorder_baldL (l : RBTree) (k : Nat) (v : String) (r : RBTree) :
    inorder (baldL l k v r) = inorder l ++ (k, v) :: inorder r := by
  unfold baldL; split <;> simp [inorder_baliR, inorder_paint]

theorem inorder_baldR (l : RBTree) (k : Nat) (v : String) (r : RBTree) :
    inorder (baldR l k v r) = inorder l ++ (k, v) :: inorder r := by
  unfold baldR; split <;> simp [inorder_baliL, inorder_paint]

theorem invh_baldL_invc {l r : RBTree} (k : Nat) (v : String)
    (hl : invh l) (hr : invh r) (hb : bheight l + 1 = bheight r) (hc : invc r) :
    invh (baldL l k v r) ∧ bheight (baldL l k v r) = bheight r := by
  unfold baldL; split
  · simp_all <;> omega
  · rename_i t2 k2 v2 t3 hnm
    have hbb : bheight l = bheight (RBTree.node .red t2 k2 v2 t3) := by
      simp_all <;> omega
    refine ⟨invh_baliR k v hl (by simp_all) hbb, ?_⟩
    rw [bheight_baliR k v hbb]
    simp_all <;> omega
  · rename_i t2 k2 v2 t3 k3 v3 t4 hnm
    have hc4 : color t4 = .black := by
      rcases hc with ⟨hx, -, -⟩
      exact (hx rfl).2
    have hp4 : bheight (paint .red t4) = bheight t4 - 1 := bheight_paint_red hc4
    have hbb : bheight t3 = bheight (paint .red t4) := by
      rw [hp4]; simp_all <;> omega
    have h1 := invh_baliR k3 v3 (by simp_all : invh t3)
      ((invh_paint .red t4).mpr (by simp_all)) hbb
    have h2 := bheight_baliR k3 v3 hbb
    simp_all <;> omega
  · rename_i hnm1 hnm2 hnm3
    exfalso
    cases r with
    | nil => simp_all
    | node rc rl rk rv rr =>
      cases rc with
      | black => exact hnm2 rl rk rv rr rfl
      | red =>
        cases rl with
        | nil => simp_all <;> omega
        | node rlc a ak av d =>
          cases rlc with
          | black => exact hnm3 a ak av d rk rv rr rfl
          | red => simp_all

theorem invh_baldR_invc {l r : RBTree} (k : Nat) (v : String)
    (hl : invh l) (hr : invh r) (hb : bheight l = bheight r + 1) (hc : invc l) :
    invh (baldR l k v r) ∧ bheight (baldR l k v r) = bheight l := by
  unfold baldR; split
  · simp_all <;> omega
  · rename_i t1 k1 v1 t2 hnm
    have hbb : bheight (RBTree.node .red t1 k1 v1 t2) = bheight r := by
      simp_all <;> omega
    refine ⟨invh_baliL k v (by simp_all) hr hbb, ?_⟩
    rw [bheight_baliL k v hbb]
    simp_all <;> omega
  · rename_i t1 k1 v1 t2 k2 v2 t3 hnm
    have hc1 : color t1 = .black := by
      rcases hc with ⟨hx, -, -⟩
      exact (hx rfl).1
    have hp1 : bheight (paint .red t1) = bheight t1 - 1 := bheight_paint_red hc1
    have hbb : bheight (paint .red t1) = bheight t2 := by
      rw [hp1]; simp_all <;> omega
    have h1 := invh_baliL k1 v1 ((invh_paint .red t1).mpr (by simp_all))
      (by simp_all : invh t2) hbb
    have h2 := bheight_baliL k1 v1 hbb
    simp_all <;> omega
  · rename_i hnm1 hnm2 hnm3
    exfalso
    cases l with
    | nil => simp_all <;> omega
    | node lc ll lk lv lr =>
      cases lc with
      | black => exact hnm1 ll lk lv lr rfl
      | red =>
        cases lr with
        | nil => simp_all <;> omega
        | node lrc a ak av d =>
          cases lrc with
          | black => exact hnm2 ll lk lv a ak av d rfl
          | red => simp_all

theorem invc2_baldL {l r : RBTree} (k : Nat) (v : String)
    (hl : invc2 l) (hr : invc r) : invc2 (baldL l k v r) := by
  unfold baldL; split
  · simp_all
  · rename_i t2 k2 v2 t3 hnm
    have hcl : color l = .black := color_black_of_no_red (by
      intro t1 k1 v1 t2 he
      exact hnm t1 k1 v1 t2 he)
    exact invc2_of_invc (invc_baliR k v (invc_of_invc2 hl hcl) (by simp_all))
  · rename_i t2 k2 v2 t3 k3 v3 t4 hnm
    have hcl : color l = .black := color_black_of_no_red (by
      intro t1 k1 v1 t2 he
      exact hnm t1 k1 v1 t2 he)
    have hl' : invc l := invc_of_invc2 hl hcl
    refine (invc2_node ..).mpr ⟨(invc_node ..).mpr ⟨by simp, hl', by simp_all⟩, ?_⟩
    refine invc_baliR k3 v3 (by simp_all) ?_
    rw [invc2_paint]
    exact invc2_of_invc (by simp_all)
  · rename_i hnm1 hnm2 hnm3
    have hcl : color l = .black := color_black_of_no_red (by
      intro t1 k1 v1 t2 he
      exact hnm1 t1 k1 v1 t2 he)
    exact (invc2_node ..).mpr ⟨invc_of_invc2 hl hcl, hr⟩

theorem invc_baldL {l r : RBTree} (k : Nat) (v : String)
    (hl : invc2 l) (hr : invc r) (hcr : color r = .black) : invc (baldL l k v r) := by
  unfold baldL; split
  · refine (invc_node ..).mpr ⟨fun _ => ⟨rfl, hcr⟩, by simp_all, hr⟩
  · rename_i t2 k2 v2 t3 hnm
    have hcl : color l = .black := color_black_of_no_red (by
      intro t1 k1 v1 t2 he
      exact hnm t1 k1 v1 t2 he)
    exact invc_baliR k v (invc_of_invc2 hl hcl) (by simp_all)
  · simp_all
  · rename_i hnm1 hnm2 hnm3
    have hcl : color l = .black := color_black_of_no_red (by
      intro t1 k1 v1 t2 he
      exact hnm1 t1 k1 v1 t2 he)
    exact (invc_node ..).mpr ⟨fun _ => ⟨hcl, hcr⟩, invc_of_invc2 hl hcl, hr⟩

theorem invc2_baldR {l r : RBTree} (k : Nat) (v : String)
    (hl : invc l) (hr : invc2 r) : invc2 (baldR l k v r) := by
  unfold baldR; split
  · simp_all
  · rename_i t1 k1 v1 t2 hnm
    have hcr : color r = .black := color_black_of_no_red (by
      intro t3 k3 v3 t4 he
      exact hnm t3 k3 v3 t4 he)
    exact invc2_of_invc (invc_baliL k v (by simp_all) (invc_of_invc2 hr hcr))
  · rename_i t1 k1 v1 t2 k2 v2 t3 hnm
    have hcr : color r = .black := color_black_of_no_red (by
      intro t3 k3 v3 t4 he
      exact hnm t3 k3 v3 t4 he)
    have hr' : invc r := invc_of_invc2 hr hcr
    refine (invc2_node ..).mpr ⟨?_, (invc_node ..).mpr ⟨by simp, by simp_all, hr'⟩⟩
    refine invc_baliL k1 v1 ?_ (by simp_all)
    rw [invc2_paint]
    exact invc2_of_invc (by simp_all)
  · rename_i hnm1 hnm2 hnm3
    have hcr : color r = .black := color_black_of_no_red (by
      intro t3 k3 v3 t4 he
      exact hnm3 t3 k3 v3 t4 he)
    exact (invc2_node ..).mpr ⟨hl, invc_of_invc2 hr hcr⟩

theorem invc_baldR {l r : RBTree} (k : Nat) (v : String)
    (hl : invc l) (hr : invc2 r) (hcl : color l = .black) : invc (baldR l k v r) := by
  unfold baldR; split
  · refine (invc_node ..).mpr ⟨fun _ => ⟨hcl, rfl⟩, hl, by simp_all⟩
  · rename_i t1 k1 v1 t2 hnm
    have hcr : color r = .black := color_black_of_no_red (by
      intro t3 k3 v3 t4 he
      exact hnm t3 k3 v3 t4 he)
    exact invc_baliL k v (by simp_all) (invc_of_invc2 hr hcr)
  · simp_all
  · rename_i hnm1 hnm2 hnm3
    have hcr : color r = .black := color_black_of_no_red (by
      intro t3 k3 v3 t4 he
      exact hnm3 t3 k3 v3 t4 he)
    exact (invc_node ..).mpr ⟨fun _ => ⟨hcl, hcr⟩, hl, invc_of_invc2 hr hcr⟩

/-! ## Invariant preservation by insertion -/

theorem invc_ins {t : RBTree} (x : Nat) (vx : String) (h : invc t) :
    invc2 (ins x vx t) ∧ (color t = .black → invc (ins x vx t)) := by
  induction t with
  | nil => simp [ins]
  | node c l k v r ihl ihr =>
    rcases h with ⟨hcc, hl, hr⟩
    cases c with
    | black =>
      simp only [ins]
      split
      · have hi := invc_baliL k v (ihl hl).1 hr
        exact ⟨invc2_of_invc hi, fun _ => hi⟩
      · split
        · have hi := invc_baliR k v hl (ihr hr).1
          exact ⟨invc2_of_invc hi, fun _ => hi⟩
        · exact ⟨by simp_all, fun _ => by simp_all⟩
    | red =>
      obtain ⟨hcl, hcr⟩ := hcc rfl
      simp only [ins]
      split
      · exact ⟨(invc2_node ..).mpr ⟨(ihl hl).2 hcl, hr⟩, by simp⟩
      · split
        · exact ⟨(invc2_node ..).mpr ⟨hl, (ihr hr).2 hcr⟩, by simp⟩
        · exact ⟨(invc2_node ..).mpr ⟨hl, hr⟩, by simp⟩

theorem invh_ins {t : RBTree} (x : Nat) (vx : String) (h : invh t) :
    invh (ins x vx t) ∧ bheight (ins x vx t) = bheight t := by
  induction t with
  | nil => simp [ins]
  | node c l k v r ihl ihr =>
    rcases h with ⟨hb, hl, hr⟩
    have Hl := ihl hl
    have Hr := ihr hr
    cases c with
    | black =>
      simp only [ins]
      split
      · refine ⟨invh_baliL k v Hl.1 hr (by omega), ?_⟩
        rw [bheight_baliL k v (by omega)]
        simp <;> omega
      · split
        · refine ⟨invh_baliR k v hl Hr.1 (by omega), ?_⟩
          rw [bheight_baliR k v (by omega)]
          simp <;> omega
        · simp_all
    | red =>
      simp only [ins]
      split
      · simp_all <;> omega
      · split
        · simp_all <;> omega
        · simp_all

/-! ## Invariant preservation by deletion -/

theorem color_black_of_isBlackNode {t : RBTree} (h : isBlackNode t = true) :
    color t = .black := by
  cases t with
  | nil => rfl
  | node c l k v r => cases c <;> simp_all [isBlackNode]

theorem one_le_bheight_of_isBlackNode {t : RBTree} (h : isBlackNode t = true) :
    1 ≤ bheight t := by
  cases t with
  | nil => simp [isBlackNode] at h
  | node c l k v r => cases c <;> simp_all [isBlackNode]

theorem not_isBlackNode_cases {t : RBTree} (h : isBlackNode t = false) :
    t = .nil ∨ color t = .red := by
  cases t with
  | nil => exact Or.inl rfl
  | node c l k v r => cases c <;> simp_all [isBlackNode]

theorem delMin_node_nil (c : Color) (k : Nat) (v : String) (r : RBTree) :
    delMin (.node c .nil k v r) = (k, v, r) := rfl

theorem delMin_node_node_black (c : Color) (ll : RBTree) (lk : Nat) (lv : String)
    (lr : RBTree) (k : Nat) (v : String) (r : RBTree) :
    delMin (.node c (.node .black ll lk lv lr) k v r) =
      ((delMin (.node .black ll lk lv lr)).1,
       (delMin (.node .black ll lk lv lr)).2.1,
       baldL (delMin (.node .black ll lk lv lr)).2.2 k v r) := rfl

theorem delMin_node_node_red (c : Color) (ll : RBTree) (lk : Nat) (lv : String)
    (lr : RBTree) (k : Nat) (v : String) (r : RBTree) :
    delMin (.node c (.node .red ll lk lv lr) k v r) =
      ((delMin (.node .red ll lk lv lr)).1,
       (delMin (.node .red ll lk lv lr)).2.1,
       .node .red (delMin (.node .red ll lk lv lr)).2.2 k v r) := rfl

theorem delMin_invs (t : RBTree) :
    t ≠ .nil → invh t → invc t →
    invh (delMin t).2.2 ∧
    (color t = .red → bheight (delMin t).2.2 = bheight t ∧ invc (delMin t).2.2) ∧
    (color t = .black → bheight (delMin t).2.2 = bheight t - 1 ∧ invc2 (delMin t).2.2) := by
  induction t with
  | nil => intro hne _ _; exact absurd rfl hne
  | node c l k v r ihl ihr =>
    intro _ hh hc
    rcases hh with ⟨hb, hhl, hhr⟩
    rcases hc with ⟨hcc, hcl, hcr⟩
    cases l with
    | nil =>
      rw [delMin_node_nil]
      cases c with
      | red =>
        exact ⟨hhr, fun _ => ⟨by simp_all <;> omega, hcr⟩, by simp⟩
      | black =>
        exact ⟨hhr, by simp, fun _ => ⟨by simp_all <;> omega, invc2_of_invc hcr⟩⟩
    | node lc ll lk lv lr =>
      have IH := ihl (by simp) hhl hcl
      cases lc with
      | black =>
        obtain ⟨IH1, -, IH3⟩ := IH
        obtain ⟨IHb, IHc⟩ := IH3 rfl
        have h1 : bheight (RBTree.node Color.black ll lk lv lr) = 1 + bheight ll := by
          simp
        have hbald := invh_baldL_invc k v IH1 hhr (by rw [h1] at hb IHb; omega) hcr
        rw [delMin_node_node_black]
        cases c with
        | red =>
          have hcrb : color r = .black := (hcc rfl).2
          refine ⟨hbald.1, fun _ => ⟨?_, invc_baldL k v IHc hcr hcrb⟩, by simp⟩
          have h2 := hbald.2
          simp
          omega
        | black =>
          refine ⟨hbald.1, by simp, fun _ => ⟨?_, invc2_baldL k v IHc hcr⟩⟩
          have h2 := hbald.2
          simp
          omega
      | red =>
        obtain ⟨IH1, IH2, -⟩ := IH
        obtain ⟨IHb, IHc⟩ := IH2 rfl
        rw [delMin_node_node_red]
        cases c with
        | red =>
          exact absurd ((hcc rfl).1) (by simp)
        | black =>
          refine ⟨?_, by simp, fun _ => ⟨?_, (invc2_node ..).mpr ⟨IHc, hcr⟩⟩⟩
          · exact (invh_node ..).mpr ⟨by rw [IHb]; simp_all, IH1, hhr⟩
          · simp [IHb]

theorem del_nil (x : Nat) : del x .nil = .nil := rfl

theorem del_node (x : Nat) (c : Color) (l : RBTree) (k : Nat) (v : String) (r : RBTree) :
    del x (.node c l k v r) =
      if x < k then
        if isBlackNode l then baldL (del x l) k v r
        else .node .red (del x l) k v r
      else if k < x then
        if isBlackNode r then baldR l k v (del x r)
        else .node .red l k v (del x r)
      else delRootJoin l r := rfl

theorem delRootJoin_nil (l : RBTree) : delRootJoin l .nil = l := rfl

theorem delRootJoin_node_black (l rl : RBTree) (rk : Nat) (rv : String) (rr : RBTree) :
    delRootJoin l (.node .black rl rk rv rr) =
      baldR l (delMin (.node .black rl rk rv rr)).1
        (delMin (.node .black rl rk rv rr)).2.1
        (delMin (.node .black rl rk rv rr)).2.2 := rfl

theorem delRootJoin_node_red (l rl : RBTree) (rk : Nat) (rv : String) (rr : RBTree) :
    delRootJoin l (.node .red rl rk rv rr) =
      .node .red l (delMin (.node .red rl rk rv rr)).1
        (delMin (.node .red rl rk rv rr)).2.1
        (delMin (.node .red rl rk rv rr)).2.2 := rfl

theorem del_invs (t : RBTree) (x : Nat) :
    invh t → invc t →
    invh (del x t) ∧
    (color t = .red → bheight (del x t) = bheight t ∧ invc (del x t)) ∧
    (color t = .black → bheight (del x t) = bheight t - 1 ∧ invc2 (del x t)) := by
  induction t with
  | nil => intro _ _; simp [del]
  | node c l k v r ihl ihr =>
    intro hh hc
    rcases hh with ⟨hb, hhl, hhr⟩
    rcases hc with ⟨hcc, hcl, hcr⟩
    have IHl := ihl hhl hcl
    have IHr := ihr hhr hcr
    rw [del_node]
    by_cases hxk : x < k
    · rw [if_pos hxk]
      cases hbl : isBlackNode l with
      | true =>
        rw [if_pos rfl]
        have hclb : color l = .black := color_black_of_isBlackNode hbl
        have hge := one_le_bheight_of_isBlackNode hbl
        obtain ⟨IH1, -, IH3⟩ := IHl
        obtain ⟨IHb, IHc⟩ := IH3 hclb
        have hbald := invh_baldL_invc k v IH1 hhr (by omega) hcr
        cases c with
        | red =>
          have hcrb : color r = .black := (hcc rfl).2
          refine ⟨hbald.1, fun _ => ⟨?_, invc_baldL k v IHc hcr hcrb⟩, by simp⟩
          have h2 := hbald.2
          simp
          omega
        | black =>
          refine ⟨hbald.1, by simp, fun _ => ⟨?_, invc2_baldL k v IHc hcr⟩⟩
          have h2 := hbald.2
          simp
          omega
      | false =>
        rw [if_neg (by simp)]
        rcases not_isBlackNode_cases hbl with rfl | hlr
        · simp only [del_nil]
          cases c <;> simp_all
        · obtain ⟨IH1, IH2, -⟩ := IHl
          obtain ⟨IHb, IHc⟩ := IH2 hlr
          cases c with
          | red => exact absurd ((hcc rfl).1) (by simp [hlr])
          | black =>
            refine ⟨?_, by simp, fun _ => ⟨?_, (invc2_node ..).mpr ⟨IHc, hcr⟩⟩⟩
            · exact (invh_node ..).mpr ⟨by rw [IHb]; exact hb, IH1, hhr⟩
            · simp [IHb]
    · rw [if_neg hxk]
      by_cases hkx : k < x
      · rw [if_pos hkx]
        cases hbr : isBlackNode r with
        | true =>
          rw [if_pos rfl]
          have hcrb : color r = .black := color_black_of_isBlackNode hbr
          have hge := one_le_bheight_of_isBlackNode hbr
          obtain ⟨IH1, -, IH3⟩ := IHr
          obtain ⟨IHb, IHc⟩ := IH3 hcrb
          have hbald := invh_baldR_invc k v hhl IH1 (by omega) hcl
          cases c with
          | red =>
            have hclb : color l = .black := (hcc rfl).1
            refine ⟨hbald.1, fun _ => ⟨?_, invc_baldR k v hcl IHc hclb⟩, by simp⟩
            have h2 := hbald.2
            simp
            omega
          | black =>
            refine ⟨hbald.1, by simp, fun _ => ⟨?_, invc2_baldR k v hcl IHc⟩⟩
            have h2 := hbald.2
            simp
            omega
        | false =>
          rw [if_neg (by simp)]
          rcases not_isBlackNode_cases hbr with rfl | hrr
          · simp only [del_nil]
            cases c <;> simp_all
          · obtain ⟨IH1, IH2, -⟩ := IHr
            obtain ⟨IHb, IHc⟩ := IH2 hrr
            cases c with
            | red => exact absurd ((hcc rfl).2) (by simp [hrr])
            | black =>
              refine ⟨?_, by simp, fun _ => ⟨?_, (invc2_node ..).mpr ⟨hcl, IHc⟩⟩⟩
              · exact (invh_node ..).mpr ⟨by rw [IHb]; exact hb, hhl, IH1⟩
              · simp
      · rw [if_neg hkx]
        cases r with
        | nil =>
          rw [delRootJoin_nil]
          cases c with
          | red => exact ⟨hhl, fun _ => ⟨by simp, hcl⟩, by simp⟩
          | black =>
            exact ⟨hhl, by simp, fun _ => ⟨by simp, invc2_of_invc hcl⟩⟩
        | node rc rl rk rv rr =>
          have hDM := delMin_invs (RBTree.node rc rl rk rv rr) (by simp) hhr hcr
          cases rc with
          | black =>
            obtain ⟨DM1, -, DM3⟩ := hDM
            obtain ⟨DMb, DMc⟩ := DM3 rfl
            have hge : 1 ≤ bheight (RBTree.node Color.black rl rk rv rr) := by
              simp
            rw [delRootJoin_node_black]
            have hbald := invh_baldR_invc
              (delMin (RBTree.node Color.black rl rk rv rr)).1
              (delMin (RBTree.node Color.black rl rk rv rr)).2.1
              hhl DM1 (by omega) hcl
            cases c with
            | red =>
              have hclb : color l = .black := (hcc rfl).1
              refine ⟨hbald.1, fun _ => ⟨?_,
                invc_baldR (delMin (RBTree.node Color.black rl rk rv rr)).1
                  (delMin (RBTree.node Color.black rl rk rv rr)).2.1
                  hcl DMc hclb⟩, by simp⟩
              have h2 := hbald.2
              simp
              omega
            | black =>
              refine ⟨hbald.1, by simp, fun _ => ⟨?_,
                invc2_baldR (delMin (RBTree.node Color.black rl rk rv rr)).1
                  (delMin (RBTree.node Color.black rl rk rv rr)).2.1
                  hcl DMc⟩⟩
              have h2 := hbald.2
              simp
              omega
          | red =>
            obtain ⟨DM1, DM2, -⟩ := hDM
            obtain ⟨DMb, DMc⟩ := DM2 rfl
            rw [delRootJoin_node_red]
            cases c with
            | red => exact absurd ((hcc rfl).2) (by simp)
            | black =>
              refine ⟨?_, by simp, fun _ => ⟨?_, (invc2_node ..).mpr ⟨hcl, DMc⟩⟩⟩
              · exact (invh_node ..).mpr ⟨by rw [DMb]; simp_all, hhl, DM1⟩
              · simp

end RBTree

/-! ## Association-list lemmas -/

theorem lookupList_eq_none_iff (x : Nat) (ps : List (Nat × String)) :
    lookupList x ps = none ↔ ∀ p ∈ ps, p.1 ≠ x := by
  induction ps with
  | nil => simp [lookupList]
  | cons p ps ih =>
    simp only [lookupList]
    by_cases h : x = p.1
    · simp [h]
    · simp only [if_neg h, ih, List.mem_cons]
      constructor
      · rintro ha q (rfl | hq)
        · exact fun he => h he.symm
        · exact ha q hq
      · intro ha q hq
        exact ha q (Or.inr hq)

theorem lookupList_append_right (x : Nat) (ps qs : List (Nat × String))
    (h : ∀ p ∈ ps, p.1 ≠ x) :
    lookupList x (ps ++ qs) = lookupList x qs := by
  induction ps with
  | nil => rfl
  | cons p ps ih =>
    have h1 : ¬ x = p.1 := fun he => h p (List.mem_cons_self p ps) he.symm
    simp only [List.cons_append, lookupList, if_neg h1]
    exact ih fun q hq => h q (List.mem_cons_of_mem p hq)

theorem lookupList_append_left (x : Nat) (ps qs : List (Nat × String))
    (h : ∀ p ∈ qs, p.1 ≠ x) :
    lookupList x (ps ++ qs) = lookupList x ps := by
  induction ps with
  | nil =>
    simp only [List.nil_append]
    exact (lookupList_eq_none_iff x qs).mpr h
  | cons p ps ih =>
    simp only [List.cons_append, lookupList]
    split
    · rfl
    · exact ih

theorem insList_append_gt (x : Nat) (v : String) (ps qs : List (Nat × String))
    (h : ∀ p ∈ ps, p.1 < x) :
    insList x v (ps ++ qs) = ps ++ insList x v qs := by
  induction ps with
  | nil => rfl
  | cons p ps ih =>
    have h1 : p.1 < x := h p (List.mem_cons_self p ps)
    have h2 : ¬ x < p.1 := by omega
    simp only [List.cons_append, insList, if_neg h2, if_pos h1]
    exact congrArg (List.cons p) (ih fun q hq => h q (List.mem_cons_of_mem p hq))

theorem insList_append_lt (x : Nat) (v : String) (ps qs : List (Nat × String))
    (h : ∀ p ∈ qs, x < p.1) :
    insList x v (ps ++ qs) = insList x v ps ++ qs := by
  induction ps with
  | nil =>
    cases qs with
    | nil => rfl
    | cons q qs =>
      have h1 : x < q.1 := h q (List.mem_cons_self q qs)
      simp [insList, h1]
  | cons p ps ih =>
    by_cases h1 : x < p.1
    · simp [insList, h1]
    · by_cases h2 : p.1 < x
      · simp [insList, h1, h2, ih]
      · simp [insList, h1, h2]

theorem delList_eq_self (x : Nat) (ps : List (Nat × String))
    (h : ∀ p ∈ ps, p.1 ≠ x) : delList x ps = ps := by
  induction ps with
  | nil => rfl
  | cons p ps ih =>
    have h1 : ¬ x = p.1 := fun he => h p (List.mem_cons_self p ps) he.symm
    simp only [delList, if_neg h1]
    rw [ih fun q hq => h q (List.mem_cons_of_mem p hq)]

theorem delList_append_of_ne_right (x : Nat) (ps qs : List (Nat × String))
    (h : ∀ p ∈ qs, p.1 ≠ x) :
    delList x (ps ++ qs) = delList x ps ++ qs := by
  induction ps with
  | nil => simpa using delList_eq_self x qs h
  | cons p ps ih =>
    by_cases h1 : x = p.1
    · simp [delList, h1]
    · simp [delList, h1, ih]

theorem delList_append_of_ne_left (x : Nat) (ps qs : List (Nat × String))
    (h : ∀ p ∈ ps, p.1 ≠ x) :
    delList x (ps ++ qs) = ps ++ delList x qs := by
  induction ps with
  | nil => rfl
  | cons p ps ih =>
    have h1 : ¬ x = p.1 := fun he => h p (List.mem_cons_self p ps) he.symm
    simp only [List.cons_append, delList, if_neg h1]
    exact congrArg (List.cons p) (ih fun q hq => h q (List.mem_cons_of_mem p hq))

theorem lookupList_insList (x y : Nat) (v : String) (ps : List (Nat × String)) :
    lookupList y (insList x v ps) = if y = x then some v else lookupList y ps := by
  induction ps with
  | nil => simp [insList, lookupList]
  | cons p ps ih =>
    by_cases h1 : x < p.1
    · simp [insList, lookupList, h1]
    · by_cases h2 : p.1 < x
      · by_cases h3 : y = p.1
        · have h4 : ¬ y = x := by omega
          have h5 : ¬ p.1 = x := by omega
          simp [insList, lookupList, h1, h2, h3, h4, h5]
        · simp [insList, lookupList, h1, h2, h3, ih]
      · have h3 : x = p.1 := by omega
        by_cases h4 : y = x
        · simp [insList, lookupList, h1, h2, h4, ← h3]
        · simp [insList, lookupList, h1, h2, h4, ← h3]

theorem lookupList_delList (x y : Nat) (ps : List (Nat × String))
    (hs : sortedPairs ps) :
    lookupList y (delList x ps) = if y = x then none else lookupList y ps := by
  induction ps with
  | nil => simp [delList, lookupList]
  | cons p ps ih =>
    obtain ⟨hall, hs'⟩ := List.pairwise_cons.mp hs
    by_cases h1 : x = p.1
    · by_cases h4 : y = x
      · have hnone : ∀ q ∈ ps, q.1 ≠ p.1 := by
          intro q hq
          have := hall q hq
          omega
        simp [delList, h1, h4, (lookupList_eq_none_iff p.1 ps).mpr hnone]
      · have h5 : ¬ y = p.1 := by omega
        simp [delList, lookupList, h1, h4, h5]
    · by_cases h5 : y = p.1
      · have h4 : ¬ y = x := by omega
        have h6 : ¬ p.1 = x := fun he => h1 he.symm
        simp [delList, lookupList, h1, h5, h4, h6]
      · simp [delList, lookupList, h1, h5, ih hs']

theorem length_delList (x : Nat) (ps : List (Nat × String))
    (h : lookupList x ps ≠ none) :
    ps.length = (delList x ps).length + 1 := by
  induction ps with
  | nil => simp [lookupList] at h
  | cons p ps ih =>
    by_cases h1 : x = p.1
    · simp [delList, h1]
    · simp only [lookupList, if_neg h1] at h
      simp [delList, h1, ih h]

theorem length_insList (x : Nat) (v : String) (ps : List (Nat × String))
    (h : lookupList x ps = none) :
    (insList x v ps).length = ps.length + 1 := by
  induction ps with
  | nil => simp [insList]
  | cons p ps ih =>
    simp only [lookupList] at h
    by_cases h1 : x = p.1
    · rw [if_pos h1] at h
      simp at h
    · rw [if_neg h1] at h
      by_cases h2 : x < p.1
      · simp [insList, h2]
      · have h3 : p.1 < x := by omega
        have h4 : ¬ x < p.1 := by omega
        simp [insList, h3, h4, ih h]

theorem mem_insList {q : Nat × String} (x : Nat) (v : String)
    (ps : List (Nat × String)) (hq : q ∈ insList x v ps) :
    q = (x, v) ∨ q ∈ ps := by
  induction ps with
  | nil =>
    simp [insList] at hq
    exact Or.inl hq
  | cons p ps ih =>
    by_cases h1 : x < p.1
    · simp only [insList, if_pos h1, List.mem_cons] at hq
      rcases hq with rfl | rfl | hq2
      · exact Or.inl rfl
      · exact Or.inr (List.mem_cons_self _ _)
      · exact Or.inr (List.mem_cons_of_mem _ hq2)
    · by_cases h2 : p.1 < x
      · simp only [insList, if_neg h1, if_pos h2, List.mem_cons] at hq
        rcases hq with rfl | hq2
        · exact Or.inr (List.mem_cons_self _ _)
        · rcases ih hq2 with h | h
          · exact Or.inl h
          · exact Or.inr (List.mem_cons_of_mem _ h)
      · simp only [insList, if_neg h1, if_neg h2, List.mem_cons] at hq
        rcases hq with rfl | hq2
        · exact Or.inl rfl
        · exact Or.inr (List.mem_cons_of_mem _ hq2)

theorem sortedPairs_insList (x : Nat) (v : String) (ps : List (Nat × String))
    (hs : sortedPairs ps) : sortedPairs (insList x v ps) := by
  induction ps with
  | nil => simp [insList, sortedPairs]
  | cons p ps ih =>
    obtain ⟨hall, hs'⟩ := List.pairwise_cons.mp hs
    by_cases h1 : x < p.1
    · simp only [insList, if_pos h1]
      refine List.pairwise_cons.mpr ⟨?_, hs⟩
      intro q hq
      rcases List.mem_cons.mp hq with rfl | hq2
      · exact h1
      · have h2 := hall q hq2
        show x < q.1
        omega
    · by_cases h2 : p.1 < x
      · simp only [insList, if_neg h1, if_pos h2]
        refine List.pairwise_cons.mpr ⟨?_, ih hs'⟩
        intro q hq
        rcases mem_insList x v ps hq with rfl | hq2
        · exact h2
        · exact hall q hq2
      · have h3 : x = p.1 := by omega
        simp only [insList, if_neg h1, if_neg h2]
        refine List.pairwise_cons.mpr ⟨?_, hs'⟩
        intro q hq
        have h4 := hall q hq
        show x < q.1
        omega

theorem delList_sublist (x : Nat) (ps : List (Nat × String)) :
    List.Sublist (delList x ps) ps := by
  induction ps with
  | nil => simp [delList]
  | cons p ps ih =>
    by_cases h1 : x = p.1
    · simp only [delList, if_pos h1]
      exact List.sublist_cons_self p ps
    · simp only [delList, if_neg h1]
      exact ih.cons₂ p

theorem sortedPairs_delList (x : Nat) (ps : List (Nat × String))
    (hs : sortedPairs ps) : sortedPairs (delList x ps) :=
  List.Pairwise.sublist (delList_sublist x ps) hs

/-! ## In-order specifications of the tree operations -/

namespace RBTree

theorem sortedPairs_node_split {c : Color} {l : RBTree} {k : Nat} {v : String}
    {r : RBTree} (hs : sortedPairs (inorder (.node c l k v r))) :
    sortedPairs (inorder l) ∧ sortedPairs (inorder r) ∧
    (∀ p ∈ inorder l, p.1 < k) ∧ (∀ q ∈ inorder r, k < q.1) := by
  simp only [inorder_node] at hs
  unfold sortedPairs at hs ⊢
  rw [List.pairwise_append] at hs
  obtain ⟨h1, h2, h3⟩ := hs
  rw [List.pairwise_cons] at h2
  exact ⟨h1, h2.2, fun p hp => h3 p hp (k, v) (List.mem_cons_self _ _), h2.1⟩

theorem search_paint (c : Color) (t : RBTree) (x : Nat) :
    search (paint c t) x = search t x := by
  cases t <;> rfl

theorem size_eq_length_inorder (t : RBTree) : size t = (inorder t).length := by
  induction t with
  | nil => rfl
  | node c l k v r ihl ihr => simp [ihl, ihr]; omega

theorem search_eq_lookupList (t : RBTree) (x : Nat)
    (hs : sortedPairs (inorder t)) :
    search t x = lookupList x (inorder t) := by
  induction t with
  | nil => rfl
  | node c l k v r ihl ihr =>
    obtain ⟨hsl, hsr, hal, har⟩ := sortedPairs_node_split hs
    simp only [search, inorder_node]
    by_cases h1 : x < k
    · rw [if_pos h1, ihl hsl, lookupList_append_left]
      intro q hq
      rcases List.mem_cons.mp hq with rfl | hq2
      · show k ≠ x
        omega
      · have := har q hq2
        omega
    · by_cases h2 : k < x
      · rw [if_neg h1, if_pos h2, ihr hsr,
          lookupList_append_right x (inorder l) _ (fun q hq => by
            have := hal q hq; omega)]
        have h3 : ¬ x = k := by omega
        simp [lookupList, h3]
      · have hxk : x = k := by omega
        rw [if_neg h1, if_neg h2,
          lookupList_append_right x (inorder l) _ (fun q hq => by
            have := hal q hq; omega)]
        simp [lookupList, hxk]

theorem inorder_ins (x : Nat) (vx : String) (t : RBTree)
    (hs : sortedPairs (inorder t)) :
    inorder (ins x vx t) = insList x vx (inorder t) := by
  induction t with
  | nil => rfl
  | node c l k v r ihl ihr =>
    obtain ⟨hsl, hsr, hal, har⟩ := sortedPairs_node_split hs
    have hqs : ∀ q ∈ (k, v) :: inorder r, x < k → x < q.1 := by
      intro q hq hxk
      rcases List.mem_cons.mp hq with rfl | hq2
      · exact hxk
      · have := har q hq2
        omega
    have hps : ∀ p ∈ inorder l, k ≤ x → p.1 < x := by
      intro p hp hkx
      have := hal p hp
      omega
    cases c with
    | black =>
      simp only [ins]
      by_cases h1 : x < k
      · rw [if_pos h1, inorder_baliL, ihl hsl, inorder_node,
          insList_append_lt x vx _ _ (fun q hq => hqs q hq h1)]
      · by_cases h2 : k < x
        · rw [if_neg h1, if_pos h2, inorder_baliR, ihr hsr, inorder_node,
            insList_append_gt x vx _ _ (fun p hp => hps p hp (by omega))]
          simp [insList, h1, h2]
        · rw [if_neg h1, if_neg h2, inorder_node, inorder_node,
            insList_append_gt x vx _ _ (fun p hp => hps p hp (by omega))]
          simp [insList, h1, h2]
    | red =>
      simp only [ins]
      by_cases h1 : x < k
      · rw [if_pos h1, inorder_node, ihl hsl, inorder_node,
          insList_append_lt x vx _ _ (fun q hq => hqs q hq h1)]
      · by_cases h2 : k < x
        · rw [if_neg h1, if_pos h2, inorder_node, ihr hsr, inorder_node,
            insList_append_gt x vx _ _ (fun p hp => hps p hp (by omega))]
          simp [insList, h1, h2]
        · rw [if_neg h1, if_neg h2, inorder_node, inorder_node,
            insList_append_gt x vx _ _ (fun p hp => hps p hp (by omega))]
          simp [insList, h1, h2]

theorem inorder_delMin (t : RBTree) (hne : t ≠ .nil) :
    ((delMin t).1, (delMin t).2.1) :: inorder (delMin t).2.2 = inorder t := by
  induction t with
  | nil => exact absurd rfl hne
  | node c l k v r ihl ihr =>
    cases l with
    | nil =>
      rw [delMin_node_nil]
      simp
    | node lc ll lk lv lr =>
      have IH := ihl (by simp)
      cases lc with
      | black =>
        rw [delMin_node_node_black]
        simp only [inorder_node, inorder_baldL]
        rw [← List.cons_append, IH]
        simp
      | red =>
        rw [delMin_node_node_red]
        simp only [inorder_node]
        rw [← List.cons_append, IH]
        simp

theorem inorder_del (x : Nat) (t : RBTree) (hs : sortedPairs (inorder t)) :
    inorder (del x t) = delList x (inorder t) := by
  induction t with
  | nil => rfl
  | node c l k v r ihl ihr =>
    obtain ⟨hsl, hsr, hal, har⟩ := sortedPairs_node_split hs
    rw [del_node]
    by_cases h1 : x < k
    · rw [if_pos h1]
      have hL : inorder
          (if isBlackNode l then baldL (del x l) k v r
           else .node .red (del x l) k v r) =
          inorder (del x l) ++ (k, v) :: inorder r := by
        split
        · rw [inorder_baldL]
        · rw [inorder_node]
      rw [hL, ihl hsl, inorder_node,
        delList_append_of_ne_right x _ _ (fun q hq => by
          rcases List.mem_cons.mp hq with rfl | hq2
          · show k ≠ x; omega
          · have := har q hq2; omega)]
    · by_cases h2 : k < x
      · rw [if_neg h1, if_pos h2]
        have hR : inorder
            (if isBlackNode r then baldR l k v (del x r)
             else .node .red l k v (del x r)) =
            inorder l ++ (k, v) :: inorder (del x r) := by
          split
          · rw [inorder_baldR]
          · rw [inorder_node]
        rw [hR, ihr hsr, inorder_node,
          delList_append_of_ne_left x _ _ (fun p hp => by
            have := hal p hp; omega)]
        have h3 : ¬ x = k := by omega
        simp [delList, h3]
      · have hxk : x = k := by omega
        rw [if_neg h1, if_neg h2]
        cases r with
        | nil =>
          rw [delRootJoin_nil, inorder_node,
            delList_append_of_ne_left x _ _ (fun p hp => by
              have := hal p hp; omega)]
          simp [delList, inorder_nil, hxk]
        | node rc rl rk rv rr =>
          have hDM := inorder_delMin (RBTree.node rc rl rk rv rr) (by simp)
          have hJ : inorder (delRootJoin l (RBTree.node rc rl rk rv rr)) =
              inorder l ++ inorder (RBTree.node rc rl rk rv rr) := by
            cases rc with
            | black =>
              rw [delRootJoin_node_black, inorder_baldR, ← hDM]
            | red =>
              rw [delRootJoin_node_red, inorder_node, ← hDM]
          rw [hJ, inorder_node c l k v (RBTree.node rc rl rk rv rr),
            delList_append_of_ne_left x _ _ (fun p hp => by
              have := hal p hp; omega)]
          simp [delList, hxk]

/-! ## Lemmas about in-place value replacement -/

theorem skel_setValue (t : RBTree) (x : Nat) (vx : String) :
    skel (setValue t x vx) = skel t := by
  induction t with
  | nil => rfl
  | node c l k v r ihl ihr =>
    simp only [setValue]
    by_cases h1 : x < k
    · simp [skel, h1, ihl]
    · by_cases h2 : k < x
      · simp [skel, h1, h2, ihr]
      · simp [skel, h1, h2]
        omega

theorem size_setValue (t : RBTree) (x : Nat) (vx : String) :
    size (setValue t x vx) = size t := by
  induction t with
  | nil => rfl
  | node c l k v r ihl ihr =>
    simp only [setValue]
    by_cases h1 : x < k
    · simp [h1, ihl]
    · by_cases h2 : k < x
      · simp [h1, h2, ihr]
      · simp [h1, h2]

theorem keys_setValue (t : RBTree) (x : Nat) (vx : String) :
    (inorder (setValue t x vx)).map Prod.fst = (inorder t).map Prod.fst := by
  induction t with
  | nil => rfl
  | node c l k v r ihl ihr =>
    simp only [setValue]
    by_cases h1 : x < k
    · simp [h1, ihl]
    · by_cases h2 : k < x
      · simp [h1, h2, ihr]
      · simp [h1, h2]
        omega

theorem sortedPairs_iff_keys (ps : List (Nat × String)) :
    sortedPairs ps ↔ List.Pairwise (· < ·) (ps.map Prod.fst) := by
  unfold sortedPairs
  rw [List.pairwise_map]

theorem sortedPairs_setValue (t : RBTree) (x : Nat) (vx : String)
    (hs : sortedPairs (inorder t)) : sortedPairs (inorder (setValue t x vx)) := by
  rw [sortedPairs_iff_keys, keys_setValue]
  exact (sortedPairs_iff_keys _).mp hs

theorem search_setValue (t : RBTree) (x : Nat) (vx : String) (y : Nat) :
    search (setValue t x vx) y =
      if y = x ∧ (search t x).isSome then some vx else search t y := by
  induction t with
  | nil => simp [setValue, search]
  | node c l k v r ihl ihr =>
    simp only [setValue]
    by_cases h1 : x < k
    · rw [if_pos h1]
      by_cases h2 : y < k
      · simp [search, h2, ihl, h1]
      · by_cases h3 : k < y
        · have h4 : ¬ y = x := by omega
          simp [search, h2, h3, h4, h1]
        · have h4 : ¬ y = x := by omega
          simp [search, h2, h3, h4, h1]
    · rw [if_neg h1]
      by_cases h2 : k < x
      · rw [if_pos h2]
        by_cases h3 : y < k
        · have h4 : ¬ y = x := by omega
          simp [search, h3, h4, h1, h2]
        · by_cases h5 : k < y
          · simp [search, h3, h5, ihr, h1, h2]
          · have h4 : ¬ y = x := by omega
            simp [search, h3, h5, h4, h1, h2]
      · rw [if_neg h2]
        have hxk : x = k := by omega
        by_cases h3 : y < k
        · have h4 : ¬ y = x := by omega
          have h5 : ¬ y = k := by omega
          simp [search, h3, h4, h5, hxk]
        · by_cases h5 : k < y
          · have h4 : ¬ y = x := by omega
            have h6 : ¬ y = k := by omega
            simp [search, h3, h5, h4, h6, hxk]
          · have h4 : y = x := by omega
            have h6 : y = k := by omega
            simp [search, h3, h5, h4, h6, hxk]

theorem color_setValue (t : RBTree) (x : Nat) (vx : String) :
    color (setValue t x vx) = color t := by
  cases t with
  | nil => rfl
  | node c l k v r =>
    simp only [setValue]
    by_cases h1 : x < k
    · simp [h1]
    · by_cases h2 : k < x <;> simp [h1, h2]

theorem invc_setValue (t : RBTree) (x : Nat) (vx : String) (h : invc t) :
    invc (setValue t x vx) := by
  induction t with
  | nil => exact h
  | node c l k v r ihl ihr =>
    obtain ⟨hcc, hl, hr⟩ := h
    simp only [setValue]
    by_cases h1 : x < k
    · rw [if_pos h1]
      exact (invc_node ..).mpr
        ⟨fun hc => ⟨by rw [color_setValue]; exact (hcc hc).1, (hcc hc).2⟩, ihl hl, hr⟩
    · by_cases h2 : k < x
      · rw [if_neg h1, if_pos h2]
        exact (invc_node ..).mpr
          ⟨fun hc => ⟨(hcc hc).1, by rw [color_setValue]; exact (hcc hc).2⟩, hl, ihr hr⟩
      · rw [if_neg h1, if_neg h2]
        exact (invc_node ..).mpr ⟨hcc, hl, hr⟩

theorem bheight_setValue (t : RBTree) (x : Nat) (vx : String) :
    bheight (setValue t x vx) = bheight t := by
  induction t with
  | nil => rfl
  | node c l k v r ihl ihr =>
    simp only [setValue]
    by_cases h1 : x < k
    · simp [h1, ihl]
    · by_cases h2 : k < x <;> simp [h1, h2]

theorem invh_setValue (t : RBTree) (x : Nat) (vx : String) (h : invh t) :
    invh (setValue t x vx) := by
  induction t with
  | nil => exact h
  | node c l k v r ihl ihr =>
    obtain ⟨hb, hl, hr⟩ := h
    simp only [setValue]
    by_cases h1 : x < k
    · rw [if_pos h1]
      exact (invh_node ..).mpr ⟨by rw [bheight_setValue]; exact hb, ihl hl, hr⟩
    · by_cases h2 : k < x
      · rw [if_neg h1, if_pos h2]
        exact (invh_node ..).mpr ⟨by rw [bheight_setValue]; exact hb, hl, ihr hr⟩
      · rw [if_neg h1, if_neg h2]
        exact (invh_node ..).mpr ⟨hb, hl, hr⟩

end RBTree

/-! ## Facade-level lemmas -/

open RBTree

theorem RBValid_new : RBValid dict_new := by
  refine ⟨rfl, trivial, trivial, ?_, rfl⟩
  simp [dict_new, sortedPairs]

theorem dict_get_new (x : Nat) : dict_get dict_new x = none := rfl

theorem contains_eq_isSome (d : Dict) (x : Nat) :
    dict_contains_key d x = (dict_get d x).isSome := rfl

theorem insert_valid {d : Dict} (x : Nat) (vx : String) (h : RBValid d) :
    RBValid (dict_insert d x vx).1 := by
  obtain ⟨hcol, hc, hh, hs, hn⟩ := h
  unfold dict_insert
  by_cases hmem : dict_contains_key d x = true
  · rw [if_pos hmem]
    refine ⟨?_, ?_, ?_, ?_, ?_⟩
    · rw [color_setValue]
      exact hcol
    · exact invc_setValue _ _ _ hc
    · exact invh_setValue _ _ _ hh
    · exact sortedPairs_setValue _ _ _ hs
    · rw [size_setValue]
      exact hn
  · rw [if_neg hmem]
    have hnone : lookupList x (inorder d.root) = none := by
      rw [← search_eq_lookupList d.root x hs]
      exact Option.not_isSome_iff_eq_none.mp hmem
    refine ⟨?_, ?_, ?_, ?_, ?_⟩
    · exact color_paint_black _
    · exact invc_paint_black (invc_ins x vx hc).1
    · exact (invh_paint _ _).mpr (invh_ins x vx hh).1
    · rw [inorder_paint, inorder_ins x vx _ hs]
      exact sortedPairs_insList x vx _ hs
    · rw [size_paint, size_eq_length_inorder, inorder_ins x vx _ hs,
        length_insList x vx _ hnone, ← size_eq_length_inorder, hn]

theorem remove_valid {d : Dict} (x : Nat) (h : RBValid d) :
    RBValid (dict_remove d x).1 := by
  obtain ⟨hcol, hc, hh, hs, hn⟩ := h
  unfold dict_remove
  by_cases hmem : dict_contains_key d x = true
  · rw [if_pos hmem]
    have hsome : lookupList x (inorder d.root) ≠ none := by
      rw [← search_eq_lookupList d.root x hs]
      intro he
      unfold dict_contains_key at hmem
      rw [he] at hmem
      simp at hmem
    refine ⟨?_, ?_, ?_, ?_, ?_⟩
    · exact color_paint_black _
    · exact invc_paint_black ((del_invs d.root x hh hc).2.2 hcol).2
    · exact (invh_paint _ _).mpr (del_invs d.root x hh hc).1
    · rw [inorder_paint, inorder_del x _ hs]
      exact sortedPairs_delList x _ hs
    · rw [size_paint, size_eq_length_inorder, inorder_del x _ hs, hn,
        size_eq_length_inorder, length_delList x _ hsome]
      simp
  · rw [if_neg hmem]
    exact ⟨hcol, hc, hh, hs, hn⟩

theorem dict_get_insert (d : Dict) (x : Nat) (vx : String) (y : Nat)
    (h : RBValid d) :
    dict_get (dict_insert d x vx).1 y = if y = x then some vx else dict_get d y := by
  obtain ⟨hcol, hc, hh, hs, hn⟩ := h
  by_cases hmem : dict_contains_key d x = true
  · unfold dict_insert
    rw [if_pos hmem]
    show search (setValue d.root x vx) y = _
    rw [search_setValue]
    rw [contains_eq_isSome] at hmem
    simp only [dict_get] at hmem ⊢
    simp [hmem]
  · unfold dict_insert
    rw [if_neg hmem]
    show search (paint .black (ins x vx d.root)) y = _
    have hs2 : sortedPairs (inorder (ins x vx d.root)) := by
      rw [inorder_ins x vx _ hs]
      exact sortedPairs_insList x vx _ hs
    rw [search_paint, search_eq_lookupList _ y hs2, inorder_ins x vx _ hs,
      lookupList_insList]
    simp only [dict_get]
    rw [search_eq_lookupList d.root y hs]

theorem dict_get_remove (d : Dict) (x : Nat) (y : Nat) (h : RBValid d) :
    dict_get (dict_remove d x).1 y = if y = x then none else dict_get d y := by
  obtain ⟨hcol, hc, hh, hs, hn⟩ := h
  by_cases hmem : dict_contains_key d x = true
  · unfold dict_remove
    rw [if_pos hmem]
    show search (paint .black (del x d.root)) y = _
    have hs2 : sortedPairs (inorder (del x d.root)) := by
      rw [inorder_del x _ hs]
      exact sortedPairs_delList x _ hs
    rw [search_paint, search_eq_lookupList _ y hs2, inorder_del x _ hs,
      lookupList_delList x y _ hs]
    simp only [dict_get]
    rw [search_eq_lookupList d.root y hs]
  · unfold dict_remove
    rw [if_neg hmem]
    have hnone : dict_get d x = none := Option.not_isSome_iff_eq_none.mp hmem
    by_cases hy : y = x
    · simp [hy, hnone]
    · simp [hy]

/-! ## Simulation against the reference model -/

theorem exec_sim (cs : List DictCall) (d : Dict) (m : MapModel)
    (hd : RBValid d) (habs : ∀ k, dict_get d k = m k) :
    RBValid (cs.foldl execCall d) ∧
    ∀ k, dict_get (cs.foldl execCall d) k = (cs.foldl execModel m) k := by
  induction cs generalizing d m with
  | nil => exact ⟨hd, habs⟩
  | cons cOp cs ih =>
    simp only [List.foldl_cons]
    cases cOp with
    | insert k v =>
      refine ih ((dict_insert d k v).1) (modelInsert m k v)
        (insert_valid k v hd) ?_
      intro y
      rw [dict_get_insert d k v y hd]
      unfold modelInsert
      by_cases hy : y = k <;> simp [hy, habs]
    | remove k =>
      refine ih ((dict_remove d k).1) (modelRemove m k)
        (remove_valid k hd) ?_
      intro y
      rw [dict_get_remove d k y hd]
      unfold modelRemove
      by_cases hy : y = k <;> simp [hy, habs]
    | get k => exact ih d m hd habs
    | contains k => exact ih d m hd habs

theorem runCalls_valid (cs : List DictCall) :
    RBValid (runCalls cs) ∧ ∀ k, dict_get (runCalls cs) k = runModel cs k :=
  exec_sim cs dict_new (fun _ => none) RBValid_new (fun _ => rfl)

/-! ## Height bound -/

namespace RBTree

theorem height_le_twice_bheight {t : RBTree} (hc : invc t) (hh : invh t) :
    height t ≤ 2 * bheight t + (if color t = .red then 1 else 0) := by
  induction t with
  | nil => simp [height]
  | node c l k v r ihl ihr =>
    rcases hc with ⟨hcc, hcl, hcr⟩
    rcases hh with ⟨hb, hhl, hhr⟩
    have Hl := ihl hcl hhl
    have Hr := ihr hcr hhr
    cases c with
    | black =>
      have Hl2 : height l ≤ 2 * bheight l + 1 := by
        cases hcol : color l <;> simp [hcol] at Hl <;> omega
      have Hr2 : height r ≤ 2 * bheight r + 1 := by
        cases hcol : color r <;> simp [hcol] at Hr <;> omega
      simp only [height, bheight_node]
      simp
      omega
    | red =>
      obtain ⟨hl2, hr2⟩ := hcc rfl
      rw [hl2] at Hl
      rw [hr2] at Hr
      simp at Hl Hr
      simp only [height, bheight_node]
      simp
      omega

theorem two_pow_bheight_le {t : RBTree} (hh : invh t) :
    2 ^ bheight t ≤ size t + 1 := by
  induction t with
  | nil => simp
  | node c l k v r ihl ihr =>
    rcases hh with ⟨hb, hhl, hhr⟩
    have Hl := ihl hhl
    have Hr := ihr hhr
    rw [← hb] at Hr
    cases c with
    | black =>
      have h2 : 2 ^ (1 + bheight l) = 2 ^ bheight l + 2 ^ bheight l := by
        rw [Nat.add_comm, pow_succ]
        omega
      simp only [bheight_node, size_node]
      simp [h2]
      omega
    | red =>
      simp only [bheight_node, size_node]
      simp
      omega

theorem height_le_log {t : RBTree} (hc : invc t) (hh : invh t)
    (hcol : color t = .black) :
    height t ≤ 2 * Nat.log 2 (size t + 1) := by
  have h1 := height_le_twice_bheight hc hh
  rw [hcol] at h1
  simp at h1
  have h2 := two_pow_bheight_le hh
  have h3 : bheight t ≤ Nat.log 2 (size t + 1) :=
    (Nat.pow_le_iff_le_log (by norm_num) (by omega)).mp h2
  omega

end RBTree

/-! ## Claim theorems -/

/-- Claim C1: after every public operation (insert, remove, get, contains,
create) returns, the tree satisfies all five red-black invariants of §3:
black root (or empty), no RED node with a RED child, equal black-height on
every path, strictly increasing in-order key sequence, and element count
equal to the number of reachable nodes — `RBValid` is exactly that
conjunction, it holds for the fresh dictionary, it is preserved by insert
and remove, queries do not disturb it, and every state reached by a
sequence of public calls satisfies it. -/
theorem claim1_invariants :
    RBValid dict_new ∧
    (∀ (d : Dict) (k : Nat) (v : String), RBValid d → RBValid (dict_insert d k v).1) ∧
    (∀ (d : Dict) (k : Nat), RBValid d → RBValid (dict_remove d k).1) ∧
    (∀ (d : Dict) (k : Nat), RBValid d →
      RBValid (execCall d (.get k)) ∧ RBValid (execCall d (.contains k))) ∧
    (∀ cs : List DictCall, RBValid (runCalls cs)) :=
  ⟨RBValid_new, fun _ k v h => insert_valid k v h, fun _ k h => remove_valid k h,
   fun _ _ h => ⟨h, h⟩, fun cs => (runCalls_valid cs).1⟩

theorem claim1_invariants_witness :
    RBValid dict_new ∧
    RBValid (dict_insert dict_new 10 "ten").1 ∧
    RBValid (dict_remove (dict_insert dict_new 10 "ten").1 10).1 :=
  ⟨claim1_invariants.1,
   claim1_invariants.2.1 dict_new 10 "ten" (by decide),
   claim1_invariants.2.2.1 (dict_insert dict_new 10 "ten").1 10 (by decide)⟩

/-- Claim C2: for any finite sequence of create/insert/remove operations,
every subsequent get and contains query returns the same result as the same
query against the reference ordered-map model run on the same sequence; in
particular insert(5,"five"); insert(5,"FIVE"); get(5) yields "FIVE" with a
single node (count 1) for key 5. -/
theorem claim2_model_refinement :
    (∀ (cs : List DictCall) (k : Nat),
      dict_get (runCalls cs) k = runModel cs k ∧
      dict_contains_key (runCalls cs) k = (runModel cs k).isSome) ∧
    dict_get (runCalls [.insert 5 "five", .insert 5 "FIVE"]) 5 = some "FIVE" ∧
    (runCalls [.insert 5 "five", .insert 5 "FIVE"]).count = 1 := by
  refine ⟨fun cs k => ⟨(runCalls_valid cs).2 k, ?_⟩, by decide, by decide⟩
  rw [contains_eq_isSome, (runCalls_valid cs).2 k]

/-- Claim C3: for every valid tree state and every key and value (including
key 0 and the maximum 64-bit key), insert(k, v) followed by get(k) returns
v, including when k was already present (overwrite). -/
theorem claim3_roundtrip (d : Dict) (k : Nat) (v : String) (h : RBValid d) :
    dict_get (dict_insert d k v).1 k = some v := by
  rw [dict_get_insert d k v k h]
  simp

theorem claim3_roundtrip_witness :
    RBValid dict_new ∧
    dict_get (dict_insert dict_new 18446744073709551615 "max").1
      18446744073709551615 = some "max" ∧
    dict_get (dict_insert dict_new 0 "zero").1 0 = some "zero" ∧
    dict_get (dict_insert (dict_insert dict_new 5 "five").1 5 "FIVE").1 5 =
      some "FIVE" :=
  ⟨by decide,
   claim3_roundtrip dict_new 18446744073709551615 "max" (by decide),
   claim3_roundtrip dict_new 0 "zero" (by decide),
   claim3_roundtrip (dict_insert dict_new 5 "five").1 5 "FIVE" (by decide)⟩

/-- Claim C4: inserting a key already present replaces the existing node's
value in place: the operation reports "updated", the new root is exactly the
in-place value replacement (no fixup code runs on this path), the skeleton
(structure, colors, keys) is unchanged so no node is created or removed, the
count is unchanged, get(k) returns the new value, and every other key's get
result is untouched. -/
theorem claim4_update_in_place (d : Dict) (k : Nat) (v : String)
    (h : dict_contains_key d k = true) :
    (dict_insert d k v).2 = .updated ∧
    (dict_insert d k v).1.root = setValue d.root k v ∧
    skel (dict_insert d k v).1.root = skel d.root ∧
    (dict_insert d k v).1.count = d.count ∧
    dict_get (dict_insert d k v).1 k = some v ∧
    ∀ y, y ≠ k → dict_get (dict_insert d k v).1 y = dict_get d y := by
  have hroot : (dict_insert d k v).1 = ⟨setValue d.root k v, d.count⟩ := by
    unfold dict_insert
    rw [if_pos h]
  have hout : (dict_insert d k v).2 = .updated := by
    unfold dict_insert
    rw [if_pos h]
  refine ⟨hout, by rw [hroot], by rw [hroot]; exact skel_setValue _ _ _,
    by rw [hroot], ?_, ?_⟩
  · rw [show dict_get (dict_insert d k v).1 k = search (setValue d.root k v) k
      from by rw [hroot]; rfl]
    rw [search_setValue]
    have h2 : (search d.root k).isSome = true := h
    simp [h2]
  · intro y hy
    rw [show dict_get (dict_insert d k v).1 y = search (setValue d.root k v) y
      from by rw [hroot]; rfl]
    rw [search_setValue]
    simp [hy, dict_get]

theorem claim4_update_in_place_witness :
    dict_contains_key (dict_insert dict_new 10 "ten").1 10 = true ∧
    (dict_insert (dict_insert dict_new 10 "ten").1 10 "TEN").2 =
      InsertOutcome.updated ∧
    (dict_insert (dict_insert dict_new 10 "ten").1 10 "TEN").1.count =
      (dict_insert dict_new 10 "ten").1.count :=
  ⟨by decide,
   (claim4_update_in_place (dict_insert dict_new 10 "ten").1 10 "TEN"
     (by decide)).1,
   (claim4_update_in_place (dict_insert dict_new 10 "ten").1 10 "TEN"
     (by decide)).2.2.2.1⟩

/-- Claim C5: remove(k) on a tree not containing k is a no-op that reports
"not found" and returns the dictionary completely unchanged; remove(k) on a
tree containing k reports "removed", deletes exactly that key (contains(k)
is false afterwards), leaves every other key's get result unchanged, and
re-establishes the red-black invariants. -/
theorem claim5_remove_semantics (d : Dict) (k : Nat) (h : RBValid d) :
    (dict_contains_key d k = false → dict_remove d k = (d, .notFound)) ∧
    (dict_contains_key d k = true →
      (dict_remove d k).2 = .removed ∧
      dict_contains_key (dict_remove d k).1 k = false ∧
      (∀ y, y ≠ k → dict_get (dict_remove d k).1 y = dict_get d y) ∧
      RBValid (dict_remove d k).1) := by
  constructor
  · intro hf
    unfold dict_remove
    rw [if_neg (by simp [hf])]
  · intro ht
    refine ⟨?_, ?_, ?_, remove_valid k h⟩
    · unfold dict_remove
      rw [if_pos ht]
    · rw [contains_eq_isSome, dict_get_remove d k k h]
      simp
    · intro y hy
      rw [dict_get_remove d k y h]
      simp [hy]

theorem claim5_remove_semantics_witness :
    dict_remove (dict_insert dict_new 1 "one").1 7 =
      ((dict_insert dict_new 1 "one").1, RemoveOutcome.notFound) ∧
    dict_contains_key
      (dict_remove (dict_insert (dict_insert (dict_insert dict_new
        10 "ten").1 20 "twenty").1 5 "five").1 10).1 10 = false ∧
    dict_get
      (dict_remove (dict_insert (dict_insert (dict_insert dict_new
        10 "ten").1 20 "twenty").1 5 "five").1 10).1 20 = some "twenty" :=
  ⟨(claim5_remove_semantics (dict_insert dict_new 1 "one").1 7
      (by decide)).1 (by decide),
   ((claim5_remove_semantics (dict_insert (dict_insert (dict_insert dict_new
      10 "ten").1 20 "twenty").1 5 "five").1 10 (by decide)).2
      (by decide)).2.1,
   by
    rw [((claim5_remove_semantics (dict_insert (dict_insert (dict_insert
      dict_new 10 "ten").1 20 "twenty").1 5 "five").1 10 (by decide)).2
      (by decide)).2.2.1 20 (by decide)]
    decide⟩

/-- Claim C6: every valid dictionary with n nodes has height at most
2·log2(n+1), and in particular every state reachable by a sequence of
public calls (including inserting keys in strictly increasing order)
satisfies this bound. -/
theorem claim6_height_bound :
    (∀ d : Dict, RBValid d → height d.root ≤ 2 * Nat.log 2 (d.count + 1)) ∧
    (∀ cs : List DictCall,
      height (runCalls cs).root ≤ 2 * Nat.log 2 ((runCalls cs).count + 1)) := by
  have hmain : ∀ d : Dict, RBValid d →
      height d.root ≤ 2 * Nat.log 2 (d.count + 1) := by
    intro d h
    obtain ⟨hcol, hc, hh, _, hn⟩ := h
    rw [hn]
    exact height_le_log hc hh hcol
  exact ⟨hmain, fun cs => hmain _ (runCalls_valid cs).1⟩

theorem claim6_height_bound_witness :
    RBValid (dict_insert dict_new 1 "one").1 ∧
    height (dict_insert dict_new 1 "one").1.root ≤
      2 * Nat.log 2 ((dict_insert dict_new 1 "one").1.count + 1) :=
  ⟨by decide, claim6_height_bound.1 (dict_insert dict_new 1 "one").1 (by decide)⟩

/-- Claim C7: if node allocation fails during insert of a brand-new key,
the tree is left completely unchanged (the node is never linked in), and
create signals allocation failure by returning a null result; a successful
allocation behaves exactly like plain insert (fixup itself has no failure
path: it is a total function by construction). -/
theorem claim7_alloc_failure (d : Dict) (k : Nat) (v : String) :
    (dict_contains_key d k = false →
      dict_insert_alloc false d k v = (d, .allocFailed)) ∧
    dict_new_alloc false = none ∧
    dict_new_alloc true = some dict_new ∧
    dict_insert_alloc true d k v = dict_insert d k v := by
  refine ⟨?_, rfl, rfl, ?_⟩
  · intro hf
    unfold dict_insert_alloc
    rw [if_neg (by simp [hf]), if_neg (by simp)]
  · unfold dict_insert_alloc dict_insert
    by_cases hmem : dict_contains_key d k = true
    · rw [if_pos hmem, if_pos hmem]
    · rw [if_neg hmem, if_neg hmem, if_pos rfl]

theorem claim7_alloc_failure_witness :
    dict_insert_alloc false dict_new 5 "five" =
      (dict_new, InsertOutcome.allocFailed) ∧
    dict_new_alloc false = none :=
  ⟨(claim7_alloc_failure dict_new 5 "five").1 (by decide),
   (claim7_alloc_failure dict_new 5 "five").2.1⟩

/-- Claim C8: a left or right rotation preserves the in-order key sequence
of any tree, preserves every node's color (the in-order (key, color)
sequence is unchanged), and swaps which of the pivot x and its child y is
the parent: left rotation around x with right child y produces y as the new
subtree root (the tree's root reference when x was the root) with x as its
left child and y's former left subtree moved to x — right rotation is the
exact mirror, and they are mutually inverse on these shapes. -/
theorem claim8_rotation :
    (∀ t : RBTree, inorder (rotateLeft t) = inorder t ∧
                   inorder (rotateRight t) = inorder t ∧
                   colorKeyPairs (rotateLeft t) = colorKeyPairs t ∧
                   colorKeyPairs (rotateRight t) = colorKeyPairs t) ∧
    (∀ (cx cy : Color) (a b c : RBTree) (kx ky : Nat) (vx vy : String),
      rotateLeft (.node cx a kx vx (.node cy b ky vy c)) =
        .node cy (.node cx a kx vx b) ky vy c ∧
      rotateRight (.node cy (.node cx a kx vx b) ky vy c) =
        .node cx a kx vx (.node cy b ky vy c) ∧
      rotateRight (rotateLeft (.node cx a kx vx (.node cy b ky vy c))) =
        .node cx a kx vx (.node cy b ky vy c)) := by
  constructor
  · intro t
    refine ⟨?_, ?_, ?_, ?_⟩
    · unfold rotateLeft
      split <;> simp
    · unfold rotateRight
      split <;> simp
    · unfold rotateLeft
      split <;> simp [colorKeyPairs]
    · unfold rotateRight
      split <;> simp [colorKeyPairs]
  · exact fun cx cy a b c kx ky vx vy => ⟨rfl, rfl, rfl⟩

/-- Claim C9: get and contains never mutate the dictionary: executing a get
or contains call returns the state unchanged, and splicing any number of
such query calls into a call sequence does not change the final state. -/
theorem claim9_queries_pure :
    (∀ (d : Dict) (k : Nat),
      execCall d (.get k) = d ∧ execCall d (.contains k) = d) ∧
    (∀ (pre post : List DictCall) (k : Nat),
      runCalls (pre ++ .get k :: post) = runCalls (pre ++ post) ∧
      runCalls (pre ++ .contains k :: post) = runCalls (pre ++ post)) := by
  refine ⟨fun d k => ⟨rfl, rfl⟩, fun pre post k => ⟨?_, ?_⟩⟩ <;>
    simp [runCalls, List.foldl_append, execCall]

/-- Claim C10: for every dictionary state and key, dict_contains_key
returns true exactly when dict_get returns a non-null result; on the empty
dictionary both report absence for every key. -/
theorem claim10_contains_get_agree :
    (∀ (d : Dict) (k : Nat),
      dict_contains_key d k = true ↔ (dict_get d k).isSome = true) ∧
    (∀ k : Nat, dict_contains_key dict_new k = false ∧
      dict_get dict_new k = none) :=
  ⟨fun _ _ => Iff.rfl, fun _ => ⟨rfl, rfl⟩⟩

end RBDict
